import Mathlib

/-!
# SuiTrace — verification of the paginated bulk-retrieval engine

Shallow embedding of the two SuiTrace command-line tools:

* the checkpoint-range tool (`FetchCheckpointRange`, `FetchCheckpointBatch`,
  the batch/retry loop), and
* the object-history tool (`FetchObjectHistory`, `GetOwnerKey`, the
  sort-and-summarize aggregation step).

Network calls are modelled by oracles: a batch-level success/failure oracle
for the range loop, and per-call result oracles for the discovery strategy.
Go `int`/`int64` values are modelled as unbounded `Int` (the sentinel
constant `9223372036854775807` from the source is kept literally).  A
checkpoint is represented by its sequence number, since all control flow of
the engine depends only on sequence numbers and success/failure of calls.
-/

namespace SuiTrace

/-! ## Checkpoint-range tool (source file with `FetchCheckpointRange`) -/

/-- One observable network interaction of the range tool: the
`FetchLatestCheckpoint` call made when `endCheckpoint <= 0`, or one
invocation of `FetchCheckpointBatch` (which itself issues one
`sui_getCheckpoint` RPC per sequence number of the batch). -/
inductive RpcEvent where
  | getLatest : RpcEvent
  | batchAttempt (s e : Int) : RpcEvent
deriving DecidableEq, Repr

/-- Iterates `count` sequence numbers upward from `s`; helper giving the Go
loop `for seq := start; seq <= end; seq++` a structurally recursive form. -/
def fetchSeqsFrom : Nat → Int → List Int
  | 0, _ => []
  | count + 1, s => s :: fetchSeqsFrom count (s + 1)

/-- `FetchCheckpointBatch(start, end)` on the success path: fetches every
sequence number `start..end` serially (empty when `start > end`).  The Go
function returns the fetched checkpoints; on a unit failure the caller
discards the partial batch, so only the success result is needed. -/
def FetchCheckpointBatch (s e : Int) : List Int :=
  fetchSeqsFrom (e + 1 - s).toNat s

/-- Result of the range loop: the fetched sequence numbers, or the abort
after retry exhaustion, carrying the retry count reported in the error
message (`"failed to fetch checkpoints after %d retries"`). -/
inductive RangeRes where
  | ok (seqs : List Int) : RangeRes
  | exhausted (reported : Nat) : RangeRes
deriving DecidableEq, Repr

/-- Execution record of the range loop: the `FetchCheckpointBatch` call
sites in order (ghost data), the number of outer loop-body iterations
(ghost data), and the returned value. -/
structure RangeOutcome where
  attempts : List (Int × Int)
  iters : Nat
  res : RangeRes
deriving DecidableEq, Repr

/-- The batch loop of `FetchCheckpointRange` (the
`for currentStart := startCheckpoint; currentStart <= endCheckpoint;
currentStart += maxBatchSize` loop).  `oracle i` tells whether the `i`-th
batch attempt succeeds.  On failure the retry counter is incremented and,
unless it exceeds `maxRetries`, the same batch is retried
(`currentStart -= maxBatchSize` followed by the loop's `+= maxBatchSize`);
on success the counter resets to `0` and the results are appended.  `fuel`
bounds the number of iterations; `none` means the fuel ran out before the
loop did. -/
def clipEnd (endC b cur : Int) : Int :=
  if cur + b - 1 > endC then endC else cur + b - 1

def runRange (oracle : Nat → Bool) (endC b : Int) (mr : Nat) :
    Nat → Int → Nat → Nat → List Int → List (Int × Int) → Nat → Option RangeOutcome
  | 0, _, _, _, _, _, _ => none
  | fuel + 1, cur, rc, aIdx, acc, atts, iters =>
    if cur ≤ endC then
      if oracle aIdx then
        runRange oracle endC b mr fuel (cur + b) 0 (aIdx + 1)
          (acc ++ FetchCheckpointBatch cur (clipEnd endC b cur))
          (atts ++ [(cur, clipEnd endC b cur)]) (iters + 1)
      else if rc + 1 > mr then
        some ⟨atts ++ [(cur, clipEnd endC b cur)], iters + 1, RangeRes.exhausted mr⟩
      else
        runRange oracle endC b mr fuel cur (rc + 1) (aIdx + 1) acc
          (atts ++ [(cur, clipEnd endC b cur)]) (iters + 1)
    else
      some ⟨atts, iters, RangeRes.ok acc⟩

/-- Lines 40–47 of the range tool: when `endCheckpoint <= 0` the latest
checkpoint is fetched first (one network interaction) and its sequence
number becomes the end of the range; `latest = none` models a failure of
`FetchLatestCheckpoint`. -/
def resolveEnd (latest : Option Int) (endC : Int) : List RpcEvent × Option Int :=
  if endC ≤ 0 then ([RpcEvent.getLatest], latest) else ([], some endC)

/-- Top-level result of `FetchCheckpointRange`. -/
inductive RangeResult where
  | fetched (seqs : List Int) : RangeResult
  | errLatest : RangeResult
  | errStartNeg : RangeResult
  | errStartGtEnd : RangeResult
  | errRetries (reported : Nat) : RangeResult
deriving DecidableEq, Repr

/-- `FetchCheckpointRange(startCheckpoint, endCheckpoint, maxBatchSize)`:
resolve the end of the range when `endCheckpoint <= 0`, validate
`startCheckpoint >= 0` and `startCheckpoint <= endCheckpoint` (in the source
this validation runs *after* the resolution step), then run the batch loop
with `maxRetries = 3`.  Returns the trace of network interactions together
with the result; `none` when the loop fuel ran out. -/
def FetchCheckpointRange (latest : Option Int) (oracle : Nat → Bool) (fuel : Nat)
    (startC endC b : Int) : Option (List RpcEvent × RangeResult) :=
  match resolveEnd latest endC with
  | (tr, none) => some (tr, RangeResult.errLatest)
  | (tr, some endR) =>
    if startC < 0 then some (tr, RangeResult.errStartNeg)
    else if startC > endR then some (tr, RangeResult.errStartGtEnd)
    else
      match runRange oracle endR b 3 fuel startC 0 0 [] [] 0 with
      | none => none
      | some o =>
        some (tr ++ o.attempts.map (fun p => RpcEvent.batchAttempt p.1 p.2),
          match o.res with
          | RangeRes.ok seqs => RangeResult.fetched seqs
          | RangeRes.exhausted r => RangeResult.errRetries r)

/-! ### The failure-free run of the batch loop -/

/-- Number of outer batch iterations for `d` remaining sequence numbers and
batch size `bn`: `ceil (d / bn)` written as `(d + bn - 1) / bn`. -/
def ceilBatches (d bn : Nat) : Nat := (d + bn - 1) / bn

/-! ## Object-history tool (source file with `FetchObjectHistory`)

An `ObjectState` keeps the fields the engine inspects.  The owner
descriptor (`map[string]interface{}` in the source) is represented by its
deterministic JSON serialization (Go's `json.Marshal` sorts map keys, so
equal descriptors serialize equally); `none` models a `nil` descriptor.
The `Content` field is never inspected by the engine and is omitted. -/

structure ObjectState where
  version : String
  digest : String
  type : String
  owner : Option String
  previousTx : String
  timestamp : Int
deriving DecidableEq, Repr

/-- `GetOwnerKey`: a `nil` owner maps to the sentinel key `"unknown"`; a
present owner maps to its serialization.  (The `"error"` branch of the
source is unreachable for descriptors decoded from JSON, which always
marshal successfully.) -/
def GetOwnerKey (owner : Option String) : String :=
  match owner with
  | none => "unknown"
  | some o => o

/-- Decimal digit accumulator for `ParseUint`: `none` on the first
non-digit character. -/
def parseUintDigits : List Char → Nat → Option Nat
  | [], acc => some acc
  | c :: cs, acc =>
    if c.isDigit then parseUintDigits cs (acc * 10 + (c.toNat - 48)) else none

/-- `strconv.ParseUint(s, 10, 64)` with the error discarded, as done by the
sort comparator: a syntactically invalid string (empty, or containing a
non-digit; base-10 `ParseUint` accepts no sign) yields `0`; an out-of-range
value yields the maximum `uint64` (Go returns `MaxUint64` together with the
range error, and the comparator drops the error). -/
def goParseUint64 (s : String) : Nat :=
  if s.data = [] then 0
  else
    match parseUintDigits s.data 0 with
    | some n => if n < 2 ^ 64 then n else 2 ^ 64 - 1
    | none => 0

/-- The monotonic sort key of a state: its version parsed as `uint64`. -/
def versionKey (st : ObjectState) : Nat := goParseUint64 st.version

/-- Sorted as established by `sort.Slice(..., vI < vJ)`: pairwise
non-decreasing version keys. -/
def sortedByVersion (l : List ObjectState) : Prop :=
  l.Sorted (fun a c => versionKey a ≤ versionKey c)

instance (l : List ObjectState) : Decidable (sortedByVersion l) := by
  unfold sortedByVersion; infer_instance

/-- The contract of Go's `sort.Slice` with the comparator of the source:
the output is a permutation of the input, sorted by version key.  The
contract explicitly does **not** promise stability for equal keys. -/
def sortSliceSpec (l out : List ObjectState) : Prop :=
  out.Perm l ∧ sortedByVersion out

/-- The sentinel initial value of the minimum-timestamp scan
(`math.MaxInt64`, written literally in the source). -/
def int64Max : Int := 9223372036854775807

/-- One step of the statistics loop over a state: record the owner key in
the set of unique owners (Go map insertion), and fold the timestamp into
the min/max scan when it is positive. -/
def statsFold (acc : List String × Int × Int) (st : ObjectState) :
    List String × Int × Int :=
  let owners := acc.1
  let minT := acc.2.1
  let maxT := acc.2.2
  let key := GetOwnerKey st.owner
  let owners := if key ∈ owners then owners else owners ++ [key]
  if 0 < st.timestamp then
    (owners,
     (if st.timestamp < minT then st.timestamp else minT),
     (if maxT < st.timestamp then st.timestamp else maxT))
  else
    (owners, minT, maxT)

/-- Derived summary fields of an object history. -/
structure HistoryStats where
  numChanges : Int
  numOwners : Int
  firstSeen : Int
  lastSeen : Int
deriving DecidableEq, Repr

/-- The statistics block of `FetchObjectHistory` (computed only when the
state list is non-empty; otherwise all fields keep their zero values):
`NumChanges = len(States) - 1`, `NumOwners` counts unique owner keys,
`FirstSeen`/`LastSeen` are the min/max scans over positive timestamps,
written back only when the sentinels moved. -/
def computeStats (states : List ObjectState) : HistoryStats :=
  if 0 < states.length then
    let folded := states.foldl statsFold ([], int64Max, 0)
    { numChanges := (states.length : Int) - 1
      numOwners := (folded.1.length : Int)
      firstSeen := if folded.2.1 < int64Max then folded.2.1 else 0
      lastSeen := if 0 < folded.2.2 then folded.2.2 else 0 }
  else
    ⟨0, 0, 0, 0⟩

/-- The result record of `FetchObjectHistory`. -/
structure ObjectHistory where
  id : String
  states : List ObjectState
  firstSeen : Int
  lastSeen : Int
  numChanges : Int
  numOwners : Int
deriving DecidableEq, Repr

/-- Outcome of `GetObjectDetailsFromTransaction` for one transaction
digest: the state of the target object, the not-found condition (the target
object does not appear among the transaction's object changes), or any
other RPC/decoding failure. -/
inductive DetailRes where
  | found (st : ObjectState) : DetailRes
  | notFound : DetailRes
  | fetchFailed : DetailRes
deriving DecidableEq, Repr

/-- The network-facing collaborators of `FetchObjectHistory`, modelled as
oracles: the current-state point lookup (`GetObjectCurrentState`; `none`
models its failure), the transaction-discovery query
(`GetAllObjectTransactions`; `none` models its failure), and the per
transaction object-state fetch (`GetObjectDetailsFromTransaction`). -/
structure DiscoveryEnv where
  currentState : Option ObjectState
  objectTransactions : Option (List String)
  detailsFromTx : String → DetailRes

/-- The per-transaction discovery loop: skip the transaction already
represented by the current state, skip failed fetches, append the rest. -/
def discoverStep (env : DiscoveryEnv) (prevTx : String)
    (acc : List ObjectState) (tx : String) : List ObjectState :=
  if tx = prevTx then acc
  else
    match env.detailsFromTx tx with
    | DetailRes.found st => acc ++ [st]
    | DetailRes.notFound => acc
    | DetailRes.fetchFailed => acc

/-- `FetchObjectHistory(objectID)`: fetch the current state (its failure
fails the run), append it, then — unless the discovery query itself failed,
in which case only the current state is kept — fetch the object's state
from every other referencing transaction, skipping per-transaction
failures; finally sort by version key and compute the statistics.
`sortImpl` stands for `sort.Slice` with the version comparator; theorems
constrain it through `sortSliceSpec`. -/
def FetchObjectHistory (env : DiscoveryEnv)
    (sortImpl : List ObjectState → List ObjectState) (objectID : String) :
    Option ObjectHistory :=
  match env.currentState with
  | none => none
  | some cur =>
    let gathered :=
      match env.objectTransactions with
      | none => [cur]
      | some txs => txs.foldl (discoverStep env cur.previousTx) [cur]
    let sorted := sortImpl gathered
    let stats := computeStats sorted
    some { id := objectID, states := sorted,
           firstSeen := stats.firstSeen, lastSeen := stats.lastSeen,
           numChanges := stats.numChanges, numOwners := stats.numOwners }

/-! ### Decomposing the statistics loop -/

/-- Owner-set component of one statistics step. -/
def ownersStep (o : List String) (st : ObjectState) : List String :=
  let key := GetOwnerKey st.owner
  if key ∈ o then o else o ++ [key]

/-- Minimum-timestamp component of one statistics step. -/
def minStep (m : Int) (st : ObjectState) : Int :=
  if 0 < st.timestamp then (if st.timestamp < m then st.timestamp else m) else m

/-- Maximum-timestamp component of one statistics step. -/
def maxStep (m : Int) (st : ObjectState) : Int :=
  if 0 < st.timestamp then (if m < st.timestamp then st.timestamp else m) else m

/-- The list of owner keys of a state list. -/
def ownerKeys (l : List ObjectState) : List String :=
  l.map (fun st => GetOwnerKey st.owner)

/-- The positive (known) timestamps of a state list, in order. -/
def posTimestamps (l : List ObjectState) : List Int :=
  (l.map ObjectState.timestamp).filter (fun t => 0 < t)

/-! ### Reference (specification-side) timestamp bounds -/

/-- The earliest known timestamp as the specification words it: the minimum
of the positive timestamps, `0` when there is none. -/
def specFirstSeen (l : List ObjectState) : Int :=
  ((posTimestamps l).min?).getD 0

/-- The latest known timestamp: the maximum of the positive timestamps, `0`
when there is none. -/
def specLastSeen (l : List ObjectState) : Int :=
  ((posTimestamps l).max?).getD 0

/-! ### The discovery loop as filter + filterMap -/

/-- Successful outcome of a per-transaction fetch, if any. -/
def detailOption (r : DetailRes) : Option ObjectState :=
  match r with
  | DetailRes.found st => some st
  | DetailRes.notFound => none
  | DetailRes.fetchFailed => none


/-! ## Properties and claim theorems -/

/-- Step equation: a successful batch attempt appends the batch results and
continues at `cur + b` with the consecutive-retry counter reset to `0`. -/
theorem runRange_step_ok {oracle : Nat → Bool} {endC b : Int} {mr : Nat}
    {fuel : Nat} {cur : Int} {rc aIdx : Nat} {acc : List Int}
    {atts : List (Int × Int)} {iters : Nat}
    (hcur : cur ≤ endC) (h : oracle aIdx = true) :
    runRange oracle endC b mr (fuel + 1) cur rc aIdx acc atts iters =
      runRange oracle endC b mr fuel (cur + b) 0 (aIdx + 1)
        (acc ++ FetchCheckpointBatch cur (clipEnd endC b cur))
        (atts ++ [(cur, clipEnd endC b cur)]) (iters + 1) := by
  rw [runRange, if_pos hcur, if_pos h]

/-- Step equation: a failed attempt with the retry budget used up aborts,
reporting the maximum retry count. -/
theorem runRange_step_abort {oracle : Nat → Bool} {endC b : Int} {mr : Nat}
    {fuel : Nat} {cur : Int} {rc aIdx : Nat} {acc : List Int}
    {atts : List (Int × Int)} {iters : Nat}
    (hcur : cur ≤ endC) (h : oracle aIdx = false) (hrc : rc + 1 > mr) :
    runRange oracle endC b mr (fuel + 1) cur rc aIdx acc atts iters =
      some ⟨atts ++ [(cur, clipEnd endC b cur)], iters + 1, RangeRes.exhausted mr⟩ := by
  rw [runRange, if_pos hcur, if_neg (by simp [h]), if_pos hrc]

/-- Step equation: a failed attempt with retry budget left re-runs the same
batch (`currentStart -= maxBatchSize` followed by the loop increment) with
the retry counter incremented. -/
theorem runRange_step_retry {oracle : Nat → Bool} {endC b : Int} {mr : Nat}
    {fuel : Nat} {cur : Int} {rc aIdx : Nat} {acc : List Int}
    {atts : List (Int × Int)} {iters : Nat}
    (hcur : cur ≤ endC) (h : oracle aIdx = false) (hrc : ¬ rc + 1 > mr) :
    runRange oracle endC b mr (fuel + 1) cur rc aIdx acc atts iters =
      runRange oracle endC b mr fuel cur (rc + 1) (aIdx + 1) acc
        (atts ++ [(cur, clipEnd endC b cur)]) (iters + 1) := by
  rw [runRange, if_pos hcur, if_neg (by simp [h]), if_neg hrc]

/-- Step equation: once the loop index has passed the end of the range the
loop exits with the accumulated results. -/
theorem runRange_step_done {oracle : Nat → Bool} {endC b : Int} {mr : Nat}
    {fuel : Nat} {cur : Int} {rc aIdx : Nat} {acc : List Int}
    {atts : List (Int × Int)} {iters : Nat} (hcur : ¬ cur ≤ endC) :
    runRange oracle endC b mr (fuel + 1) cur rc aIdx acc atts iters =
      some ⟨atts, iters, RangeRes.ok acc⟩ := by
  rw [runRange, if_neg hcur]

/-! ### Basic facts about `FetchCheckpointBatch` -/

theorem mem_fetchSeqsFrom (n : Nat) :
    ∀ (s x : Int), x ∈ fetchSeqsFrom n s ↔ s ≤ x ∧ x < s + n := by
  induction n with
  | zero => intro s x; simp [fetchSeqsFrom]
  | succ n ih =>
    intro s x
    simp only [fetchSeqsFrom, List.mem_cons, ih (s + 1) x]
    omega

theorem fetchSeqsFrom_sorted (n : Nat) :
    ∀ s : Int, (fetchSeqsFrom n s).Sorted (· < ·) := by
  induction n with
  | zero => intro s; simp [fetchSeqsFrom]
  | succ n ih =>
    intro s
    simp only [fetchSeqsFrom, List.sorted_cons]
    refine ⟨fun b hb => ?_, ih (s + 1)⟩
    rcases (mem_fetchSeqsFrom n (s + 1) b).mp hb with ⟨h1, _⟩
    omega

theorem fetchSeqsFrom_append (m n : Nat) :
    ∀ s : Int, fetchSeqsFrom (m + n) s = fetchSeqsFrom m s ++ fetchSeqsFrom n (s + m) := by
  induction m with
  | zero => intro s; simp [fetchSeqsFrom]
  | succ m ih =>
    intro s
    have h : m + 1 + n = (m + n) + 1 := by omega
    rw [h]
    simp only [fetchSeqsFrom, ih (s + 1), List.cons_append]
    have h2 : s + 1 + (m : Int) = s + (m + 1 : Nat) := by push_cast; ring
    rw [h2]

theorem mem_FetchCheckpointBatch (s e x : Int) :
    x ∈ FetchCheckpointBatch s e ↔ s ≤ x ∧ x ≤ e := by
  unfold FetchCheckpointBatch
  rw [mem_fetchSeqsFrom]
  omega

theorem FetchCheckpointBatch_sorted (s e : Int) :
    (FetchCheckpointBatch s e).Sorted (· < ·) :=
  fetchSeqsFrom_sorted _ s

theorem FetchCheckpointBatch_nodup (s e : Int) : (FetchCheckpointBatch s e).Nodup :=
  (FetchCheckpointBatch_sorted s e).imp (fun h => ne_of_lt h)

/-- Splitting a batch range at an interior point `m`. -/
theorem FetchCheckpointBatch_split (s m e : Int) (h1 : s ≤ m + 1) (h2 : m ≤ e) :
    FetchCheckpointBatch s e = FetchCheckpointBatch s m ++ FetchCheckpointBatch (m + 1) e := by
  unfold FetchCheckpointBatch
  have hsum : (e + 1 - s).toNat = (m + 1 - s).toNat + (e + 1 - (m + 1)).toNat := by omega
  rw [hsum, fetchSeqsFrom_append]
  have : s + ((m + 1 - s).toNat : Int) = m + 1 := by omega
  rw [this]

theorem ceilBatches_step (d bn : Nat) (hd : 1 ≤ d) (hb : 1 ≤ bn) :
    ceilBatches d bn = 1 + ceilBatches (d - bn) bn := by
  unfold ceilBatches
  by_cases hle : d ≤ bn
  · have h0 : d - bn = 0 := by omega
    rw [h0]
    have hL : (d + bn - 1) / bn = 1 := by
      apply Nat.div_eq_of_lt_le <;> omega
    have hR : (0 + bn - 1) / bn = 0 := Nat.div_eq_of_lt (by omega)
    omega
  · have h1 : d + bn - 1 = (d - 1 - bn) + bn + bn := by omega
    have h2 : d - bn + bn - 1 = (d - 1 - bn) + bn := by omega
    rw [h1, h2, Nat.add_div_right _ (by omega), Nat.add_div_right _ (by omega)]
    omega

theorem ceilBatches_eq_one (d bn : Nat) (h1 : 1 ≤ d) (h2 : d ≤ bn) :
    ceilBatches d bn = 1 := by
  unfold ceilBatches
  apply Nat.div_eq_of_lt_le <;> omega

theorem runRange_allOk (endC b : Int) (mr : Nat) (hb : 1 ≤ b) :
    ∀ (fuel : Nat) (cur : Int) (aIdx : Nat) (acc : List Int)
      (atts : List (Int × Int)) (iters : Nat),
      cur ≤ endC → (endC + 1 - cur).toNat + 1 ≤ fuel →
      ∃ atts2, runRange (fun _ => true) endC b mr fuel cur 0 aIdx acc atts iters =
        some ⟨atts ++ atts2, iters + ceilBatches (endC + 1 - cur).toNat b.toNat,
          RangeRes.ok (acc ++ FetchCheckpointBatch cur endC)⟩ := by
  intro fuel
  induction fuel with
  | zero => intro cur aIdx acc atts iters hcur hfuel; omega
  | succ fuel ih =>
    intro cur aIdx acc atts iters hcur hfuel
    rw [runRange_step_ok hcur rfl]
    by_cases hnext : cur + b ≤ endC
    · -- more batches follow; the current batch ends at cur + b - 1
      have hce : clipEnd endC b cur = cur + b - 1 := by
        unfold clipEnd; rw [if_neg (by omega)]
      rw [hce]
      obtain ⟨atts2, hrec⟩ := ih (cur + b) (aIdx + 1)
        (acc ++ FetchCheckpointBatch cur (cur + b - 1))
        (atts ++ [(cur, cur + b - 1)]) (iters + 1) hnext (by omega)
      refine ⟨(cur, cur + b - 1) :: atts2, ?_⟩
      rw [hrec]
      have hsplit : FetchCheckpointBatch cur endC =
          FetchCheckpointBatch cur (cur + b - 1) ++ FetchCheckpointBatch (cur + b) endC := by
        have := FetchCheckpointBatch_split cur (cur + b - 1) endC (by omega) (by omega)
        simpa using this
      have hceil : ceilBatches (endC + 1 - cur).toNat b.toNat =
          1 + ceilBatches (endC + 1 - (cur + b)).toNat b.toNat := by
        have h1 : (endC + 1 - (cur + b)).toNat = (endC + 1 - cur).toNat - b.toNat := by omega
        rw [h1]
        exact ceilBatches_step _ _ (by omega) (by omega)
      rw [hsplit, hceil]
      simp only [List.append_assoc, List.cons_append, List.nil_append,
        List.singleton_append, Option.some.injEq, RangeOutcome.mk.injEq,
        true_and, and_true, List.append_cancel_left_eq]
      omega
    · -- final batch: it is clipped to endC and the next index leaves the loop
      have hlast : endC < cur + b := by omega
      have hfin : (endC + 1 - cur).toNat ≥ 1 := by omega
      obtain ⟨fuel, rfl⟩ : ∃ f, fuel = f + 1 := ⟨fuel - 1, by omega⟩
      rw [runRange_step_done (by omega)]
      have hce : clipEnd endC b cur = endC := by
        unfold clipEnd
        by_cases hclip : cur + b - 1 > endC
        · rw [if_pos hclip]
        · rw [if_neg hclip]; omega
      rw [hce, ceilBatches_eq_one _ _ (by omega) (by omega)]
      exact ⟨[(cur, endC)], rfl⟩

/-! ### Retry exhaustion, termination, non-termination -/

/-- With every batch attempt failing, starting from retry count `rc` with
`rc + k = mr` the loop performs exactly `k + 1` further attempts of the same
batch and aborts reporting `mr`. -/
theorem runRange_allFail (endC b : Int) (mr : Nat) :
    ∀ (k rc : Nat), rc + k = mr →
    ∀ (fuel : Nat), k + 1 ≤ fuel →
    ∀ (cur : Int) (aIdx : Nat) (acc : List Int) (atts : List (Int × Int)) (iters : Nat),
      cur ≤ endC →
      runRange (fun _ => false) endC b mr fuel cur rc aIdx acc atts iters =
        some ⟨atts ++ List.replicate (k + 1) (cur, clipEnd endC b cur),
          iters + (k + 1), RangeRes.exhausted mr⟩ := by
  intro k
  induction k with
  | zero =>
    intro rc hrc fuel hfuel cur aIdx acc atts iters hcur
    obtain ⟨fuel, rfl⟩ : ∃ f, fuel = f + 1 := ⟨fuel - 1, by omega⟩
    rw [runRange_step_abort hcur rfl (by omega)]
    simp
  | succ k ih =>
    intro rc hrc fuel hfuel cur aIdx acc atts iters hcur
    obtain ⟨fuel, rfl⟩ : ∃ f, fuel = f + 1 := ⟨fuel - 1, by omega⟩
    rw [runRange_step_retry hcur rfl (by omega)]
    rw [ih (rc + 1) (by omega) fuel (by omega) cur (aIdx + 1) acc _ (iters + 1) hcur]
    have hrep : atts ++ [(cur, clipEnd endC b cur)] ++
        List.replicate (k + 1) (cur, clipEnd endC b cur) =
        atts ++ List.replicate (k + 1 + 1) (cur, clipEnd endC b cur) := by
      rw [List.append_assoc, List.singleton_append, ← List.replicate_succ]
    rw [hrep]
    have hit : iters + 1 + (k + 1) = iters + (k + 1 + 1) := by omega
    rw [hit]

/-- With batch size at least `1`, the loop finishes (one way or the other)
within `(endC + 1 - cur).toNat * (mr + 1) + (mr - rc) + 1` iterations,
whatever the success/failure pattern. -/
theorem runRange_total (oracle : Nat → Bool) (endC b : Int) (hb : 1 ≤ b) (mr : Nat) :
    ∀ (fuel : Nat) (cur : Int) (rc aIdx : Nat) (acc : List Int)
      (atts : List (Int × Int)) (iters : Nat),
      (endC + 1 - cur).toNat * (mr + 1) + (mr - rc) < fuel →
      (runRange oracle endC b mr fuel cur rc aIdx acc atts iters).isSome = true := by
  intro fuel
  induction fuel with
  | zero => intro cur rc aIdx acc atts iters hm; omega
  | succ fuel ih =>
    intro cur rc aIdx acc atts iters hm
    by_cases hcur : cur ≤ endC
    · cases h : oracle aIdx with
      | true =>
        rw [runRange_step_ok hcur h]
        apply ih
        have ht : (endC + 1 - (cur + b)).toNat + 1 ≤ (endC + 1 - cur).toNat := by omega
        have hmul : ((endC + 1 - (cur + b)).toNat + 1) * (mr + 1) ≤
            (endC + 1 - cur).toNat * (mr + 1) := Nat.mul_le_mul_right _ ht
        rw [Nat.succ_mul] at hmul
        generalize hA : (endC + 1 - (cur + b)).toNat * (mr + 1) = A at *
        generalize hB : (endC + 1 - cur).toNat * (mr + 1) = B at *
        omega
      | false =>
        by_cases hrc : rc + 1 > mr
        · rw [runRange_step_abort hcur h hrc]; rfl
        · rw [runRange_step_retry hcur h hrc]
          apply ih
          generalize hB : (endC + 1 - cur).toNat * (mr + 1) = B at *
          omega
    · rw [runRange_step_done hcur]; rfl

/-- With batch size at most `0` and all fetches succeeding, the loop index
never passes the end of the range, so no amount of fuel completes the loop. -/
theorem runRange_stuck (endC b : Int) (hb : b ≤ 0) (mr : Nat) :
    ∀ (fuel : Nat) (cur : Int) (rc aIdx : Nat) (acc : List Int)
      (atts : List (Int × Int)) (iters : Nat), cur ≤ endC →
      runRange (fun _ => true) endC b mr fuel cur rc aIdx acc atts iters = none := by
  intro fuel
  induction fuel with
  | zero => intro cur rc aIdx acc atts iters hcur; rfl
  | succ fuel ih =>
    intro cur rc aIdx acc atts iters hcur
    rw [runRange_step_ok hcur rfl]
    exact ih (cur + b) 0 (aIdx + 1) _ _ (iters + 1) (by omega)

theorem statsFold_eq (o : List String) (m M : Int) (st : ObjectState) :
    statsFold (o, m, M) st = (ownersStep o st, minStep m st, maxStep M st) := by
  unfold statsFold ownersStep minStep maxStep
  by_cases h : 0 < st.timestamp <;> simp [h]

theorem foldl_statsFold (l : List ObjectState) :
    ∀ (o : List String) (m M : Int),
      l.foldl statsFold (o, m, M) =
        (l.foldl ownersStep o, l.foldl minStep m, l.foldl maxStep M) := by
  induction l with
  | nil => intro o m M; rfl
  | cons st l ih =>
    intro o m M
    simp only [List.foldl_cons, statsFold_eq]
    exact ih _ _ _

theorem foldl_ownersStep_nodup (l : List ObjectState) :
    ∀ o : List String, o.Nodup → (l.foldl ownersStep o).Nodup := by
  induction l with
  | nil => intro o h; exact h
  | cons st l ih =>
    intro o h
    simp only [List.foldl_cons]
    apply ih
    unfold ownersStep
    by_cases hmem : GetOwnerKey st.owner ∈ o
    · rw [if_pos hmem]; exact h
    · rw [if_neg hmem]
      simpa [List.nodup_append] using ⟨h, hmem⟩

theorem foldl_ownersStep_toFinset (l : List ObjectState) :
    ∀ o : List String,
      (l.foldl ownersStep o).toFinset = o.toFinset ∪ (ownerKeys l).toFinset := by
  induction l with
  | nil => intro o; simp [ownerKeys]
  | cons st l ih =>
    intro o
    simp only [List.foldl_cons, ih]
    unfold ownersStep
    by_cases hmem : GetOwnerKey st.owner ∈ o
    · rw [if_pos hmem]
      ext x
      simp only [ownerKeys, List.map_cons, List.toFinset_cons, Finset.mem_union,
        Finset.mem_insert, List.mem_toFinset]
      constructor
      · tauto
      · rintro (h | rfl | h)
        · exact Or.inl h
        · exact Or.inl hmem
        · exact Or.inr h
    · rw [if_neg hmem]
      ext x
      simp only [ownerKeys, List.map_cons, List.toFinset_cons, List.toFinset_append,
        Finset.mem_union, Finset.mem_insert, List.mem_toFinset, List.mem_append,
        List.mem_singleton]
      tauto

theorem foldl_ownersStep_length (l : List ObjectState) :
    (l.foldl ownersStep []).length = (ownerKeys l).toFinset.card := by
  have hnd : (l.foldl ownersStep []).Nodup := foldl_ownersStep_nodup l [] List.nodup_nil
  have hfs : (l.foldl ownersStep []).toFinset = (ownerKeys l).toFinset := by
    rw [foldl_ownersStep_toFinset]; simp
  rw [← hfs, List.card_toFinset, hnd.dedup]

theorem foldl_ownersStep_ne_nil (l : List ObjectState) (hl : l ≠ []) :
    l.foldl ownersStep [] ≠ [] := by
  intro hcontra
  have hfs := foldl_ownersStep_toFinset l []
  rw [hcontra] at hfs
  rcases l with _ | ⟨st, l⟩
  · exact hl rfl
  · simp only [ownerKeys, List.toFinset_nil, Finset.empty_union, List.map_cons,
      List.toFinset_cons] at hfs
    exact Finset.insert_ne_empty _ _ hfs.symm

theorem posTimestamps_cons (st : ObjectState) (l : List ObjectState) :
    posTimestamps (st :: l) =
      if 0 < st.timestamp then st.timestamp :: posTimestamps l else posTimestamps l := by
  unfold posTimestamps
  by_cases h : 0 < st.timestamp <;> simp [List.filter_cons, h]

/-- Characterization of the minimum scan: it returns its initial value or a
positive timestamp, and is a lower bound of both. -/
theorem foldl_minStep_char (l : List ObjectState) :
    ∀ m : Int,
      (l.foldl minStep m = m ∨ l.foldl minStep m ∈ posTimestamps l) ∧
      l.foldl minStep m ≤ m ∧ ∀ x ∈ posTimestamps l, l.foldl minStep m ≤ x := by
  induction l with
  | nil => intro m; simp [posTimestamps]
  | cons st l ih =>
    intro m
    simp only [List.foldl_cons, posTimestamps_cons]
    by_cases h : 0 < st.timestamp
    · obtain ⟨ihmem, ihle, ihbound⟩ := ih (minStep m st)
      rw [if_pos h]
      have hm : minStep m st = if st.timestamp < m then st.timestamp else m := by
        unfold minStep; rw [if_pos h]
      have hle_m : minStep m st ≤ m := by rw [hm]; split <;> omega
      have hle_t : minStep m st ≤ st.timestamp := by rw [hm]; split <;> omega
      refine ⟨?_, by omega, ?_⟩
      · rcases ihmem with heq | hmem
        · rw [heq, hm]
          split
          · exact Or.inr (List.mem_cons_self _ _)
          · exact Or.inl rfl
        · exact Or.inr (List.mem_cons_of_mem _ hmem)
      · intro x hx
        rcases List.mem_cons.mp hx with rfl | hx
        · omega
        · exact ihbound x hx
    · rw [if_neg h]
      have hm : minStep m st = m := by unfold minStep; rw [if_neg h]
      rw [hm]
      exact ih m

/-- Characterization of the maximum scan. -/
theorem foldl_maxStep_char (l : List ObjectState) :
    ∀ m : Int,
      (l.foldl maxStep m = m ∨ l.foldl maxStep m ∈ posTimestamps l) ∧
      m ≤ l.foldl maxStep m ∧ ∀ x ∈ posTimestamps l, x ≤ l.foldl maxStep m := by
  induction l with
  | nil => intro m; simp [posTimestamps]
  | cons st l ih =>
    intro m
    simp only [List.foldl_cons, posTimestamps_cons]
    by_cases h : 0 < st.timestamp
    · obtain ⟨ihmem, ihle, ihbound⟩ := ih (maxStep m st)
      rw [if_pos h]
      have hm : maxStep m st = if m < st.timestamp then st.timestamp else m := by
        unfold maxStep; rw [if_pos h]
      have hle_m : m ≤ maxStep m st := by rw [hm]; split <;> omega
      have hle_t : st.timestamp ≤ maxStep m st := by rw [hm]; split <;> omega
      refine ⟨?_, by omega, ?_⟩
      · rcases ihmem with heq | hmem
        · rw [heq, hm]
          split
          · exact Or.inr (List.mem_cons_self _ _)
          · exact Or.inl rfl
        · exact Or.inr (List.mem_cons_of_mem _ hmem)
      · intro x hx
        rcases List.mem_cons.mp hx with rfl | hx
        · omega
        · exact ihbound x hx
    · rw [if_neg h]
      have hm : maxStep m st = m := by unfold maxStep; rw [if_neg h]
      rw [hm]
      exact ih m

/-! ### Permutation invariance of the summary -/

theorem foldl_minStep_perm {l1 l2 : List ObjectState} (h : l1.Perm l2) (m : Int) :
    l1.foldl minStep m = l2.foldl minStep m := by
  obtain ⟨mem1, le1, b1⟩ := foldl_minStep_char l1 m
  obtain ⟨mem2, le2, b2⟩ := foldl_minStep_char l2 m
  have hpt : (posTimestamps l1).Perm (posTimestamps l2) :=
    (h.map ObjectState.timestamp).filter _
  apply le_antisymm
  · rcases mem2 with heq | hm
    · rw [heq]; exact le1
    · exact b1 _ (hpt.mem_iff.mpr hm)
  · rcases mem1 with heq | hm
    · rw [heq]; exact le2
    · exact b2 _ (hpt.mem_iff.mp hm)

theorem foldl_maxStep_perm {l1 l2 : List ObjectState} (h : l1.Perm l2) (m : Int) :
    l1.foldl maxStep m = l2.foldl maxStep m := by
  obtain ⟨mem1, le1, b1⟩ := foldl_maxStep_char l1 m
  obtain ⟨mem2, le2, b2⟩ := foldl_maxStep_char l2 m
  have hpt : (posTimestamps l1).Perm (posTimestamps l2) :=
    (h.map ObjectState.timestamp).filter _
  apply le_antisymm
  · rcases mem1 with heq | hm
    · rw [heq]; exact le2
    · exact b2 _ (hpt.mem_iff.mp hm)
  · rcases mem2 with heq | hm
    · rw [heq]; exact le1
    · exact b1 _ (hpt.mem_iff.mpr hm)

theorem foldl_ownersStep_length_perm {l1 l2 : List ObjectState} (h : l1.Perm l2) :
    (l1.foldl ownersStep []).length = (l2.foldl ownersStep []).length := by
  rw [foldl_ownersStep_length, foldl_ownersStep_length]
  unfold ownerKeys
  exact congrArg Finset.card
    (List.toFinset_eq_of_perm _ _ (h.map (fun st => GetOwnerKey st.owner)))

/-- The four summary statistics only depend on the multiset of states. -/
theorem computeStats_perm {l1 l2 : List ObjectState} (h : l1.Perm l2) :
    computeStats l1 = computeStats l2 := by
  have hlen : l1.length = l2.length := h.length_eq
  simp only [computeStats, foldl_statsFold, hlen,
    foldl_minStep_perm h int64Max, foldl_maxStep_perm h 0,
    foldl_ownersStep_length_perm h]

theorem mem_posTimestamps {l : List ObjectState} {x : Int} :
    x ∈ posTimestamps l ↔ (∃ st ∈ l, st.timestamp = x) ∧ 0 < x := by
  unfold posTimestamps
  simp only [List.mem_filter, List.mem_map, decide_eq_true_eq]

/-- On inputs whose timestamps stay below the `int64Max` sentinel,
`FirstSeen` is exactly the minimum positive timestamp (or `0`). -/
theorem computeStats_firstSeen (l : List ObjectState)
    (h : ∀ st ∈ l, st.timestamp < int64Max) :
    (computeStats l).firstSeen = specFirstSeen l := by
  by_cases h0 : l = []
  case neg =>
    have hlen : 0 < l.length := List.length_pos.mpr h0
    simp only [computeStats, foldl_statsFold, if_pos hlen]
    obtain ⟨mem, le, bound⟩ := foldl_minStep_char l int64Max
    cases hpt : posTimestamps l with
    | nil =>
      rw [hpt] at mem
      rcases mem with heq | hc
      · simp only [heq, specFirstSeen, hpt, List.min?_nil, Option.getD_none]
        rw [if_neg (lt_irrefl _)]
      · simp at hc
    | cons t ts =>
      have htmem : t ∈ posTimestamps l := by rw [hpt]; exact List.mem_cons_self _ _
      have htlt : t < int64Max := by
        rcases mem_posTimestamps.mp htmem with ⟨⟨st, hst, rfl⟩, _⟩
        exact h st hst
      have hrmem : l.foldl minStep int64Max ∈ posTimestamps l := by
        rcases mem with heq | hm
        · exfalso
          have := bound t htmem
          omega
        · exact hm
      have hrlt : l.foldl minStep int64Max < int64Max := by
        have := bound t htmem
        omega
      rw [if_pos hrlt]
      cases hm : (posTimestamps l).min? with
      | none =>
        rw [List.min?_eq_none_iff] at hm
        rw [hm] at htmem
        simp at htmem
      | some v =>
        haveI : Std.Antisymm ((· : Int) ≤ ·) := ⟨fun h1 h2 => le_antisymm h1 h2⟩
        have hv := (List.min?_eq_some_iff (fun a => le_refl a)
          (fun a c => min_choice a c) (fun _ _ _ => le_min_iff)).mp hm
        have h1 : v ≤ l.foldl minStep int64Max := hv.2 _ hrmem
        have h2 : l.foldl minStep int64Max ≤ v := bound _ hv.1
        simp only [specFirstSeen, hm, Option.getD_some]
        omega
  case pos => subst h0; rfl

/-- `LastSeen` is exactly the maximum positive timestamp (or `0`),
unconditionally. -/
theorem computeStats_lastSeen (l : List ObjectState) :
    (computeStats l).lastSeen = specLastSeen l := by
  by_cases h0 : l = []
  case neg =>
    have hlen : 0 < l.length := List.length_pos.mpr h0
    simp only [computeStats, foldl_statsFold, if_pos hlen]
    obtain ⟨mem, le, bound⟩ := foldl_maxStep_char l 0
    cases hpt : posTimestamps l with
    | nil =>
      rw [hpt] at mem
      rcases mem with heq | hc
      · simp only [heq, specLastSeen, hpt, List.max?_nil, Option.getD_none]
        rw [if_neg (lt_irrefl _)]
      · simp at hc
    | cons t ts =>
      have htmem : t ∈ posTimestamps l := by rw [hpt]; exact List.mem_cons_self _ _
      have htpos : 0 < t := (mem_posTimestamps.mp htmem).2
      have hrmem : l.foldl maxStep 0 ∈ posTimestamps l := by
        rcases mem with heq | hm
        · exfalso
          have := bound t htmem
          omega
        · exact hm
      have hrpos : 0 < l.foldl maxStep 0 := by
        have := bound t htmem
        omega
      rw [if_pos hrpos]
      cases hm : (posTimestamps l).max? with
      | none =>
        rw [List.max?_eq_none_iff] at hm
        rw [hm] at htmem
        simp at htmem
      | some v =>
        haveI : Std.Antisymm ((· : Int) ≤ ·) := ⟨fun h1 h2 => le_antisymm h1 h2⟩
        have hv := (List.max?_eq_some_iff (fun a => le_refl a)
          (fun a c => max_choice a c) (fun _ _ _ => max_le_iff)).mp hm
        have h1 : l.foldl maxStep 0 ≤ v := hv.2 _ hrmem
        have h2 : v ≤ l.foldl maxStep 0 := bound _ hv.1
        simp only [specLastSeen, hm, Option.getD_some]
        omega
  case pos => subst h0; rfl

theorem foldl_discoverStep (env : DiscoveryEnv) (prevTx : String) :
    ∀ (txs : List String) (acc : List ObjectState),
      txs.foldl (discoverStep env prevTx) acc =
        acc ++ (txs.filter (fun t => t ≠ prevTx)).filterMap
          (fun t => detailOption (env.detailsFromTx t)) := by
  intro txs
  induction txs with
  | nil => intro acc; simp
  | cons tx txs ih =>
    intro acc
    simp only [List.foldl_cons]
    by_cases h : tx = prevTx
    · have hfc : (tx :: txs).filter (fun t => t ≠ prevTx) =
          txs.filter (fun t => t ≠ prevTx) := by
        simp [List.filter_cons, h]
      rw [hfc, discoverStep, if_pos h, ih acc]
    · have hfc : (tx :: txs).filter (fun t => t ≠ prevTx) =
          tx :: txs.filter (fun t => t ≠ prevTx) := by
        simp [List.filter_cons, h]
      rw [hfc, discoverStep, if_neg h, List.filterMap_cons]
      cases hdet : env.detailsFromTx tx with
      | found st =>
        show List.foldl (discoverStep env prevTx) (acc ++ [st]) txs = _
        rw [ih (acc ++ [st])]
        simp [detailOption]
      | notFound =>
        show List.foldl (discoverStep env prevTx) acc txs = _
        rw [ih acc]
        simp [detailOption]
      | fetchFailed =>
        show List.foldl (discoverStep env prevTx) acc txs = _
        rw [ih acc]
        simp [detailOption]

/-- Helper: the summary statistics of a non-empty state list. -/
theorem computeStats_of_ne_nil (l : List ObjectState) (hl : l ≠ []) :
    (computeStats l).numChanges = (l.length : Int) - 1 ∧
    1 ≤ (computeStats l).numOwners := by
  have hlen : 0 < l.length := List.length_pos.mpr hl
  refine ⟨?_, ?_⟩
  · simp [computeStats, if_pos hlen]
  · simp only [computeStats, foldl_statsFold, if_pos hlen]
    have hne := foldl_ownersStep_ne_nil l hl
    have hpos := List.length_pos.mpr hne
    exact_mod_cast hpos

/-- Helper: `numOwners` counts the distinct owner keys. -/
theorem computeStats_numOwners (l : List ObjectState) :
    (computeStats l).numOwners = ((ownerKeys l).toFinset.card : Int) := by
  by_cases h0 : l = []
  · subst h0; rfl
  · have hlen : 0 < l.length := List.length_pos.mpr h0
    simp only [computeStats, foldl_statsFold, if_pos hlen]
    exact_mod_cast foldl_ownersStep_length l

/-! ## The claims -/

/-- C1: for every configuration with `0 ≤ start ≤ end` and `batchSize ≥ 1`,
assuming no fetch fails, the bounded-range strategy issues a fetch for every
sequence number in `[start, end]` exactly once, in ascending order, and
performs exactly `ceil ((end - start + 1) / batchSize)` outer batch
iterations (here `(endC + 1 - startC).toNat = end - start + 1` and
`ceilBatches d bn = (d + bn - 1) / bn = ceil (d / bn)`). -/
theorem claim_C1_visits_each_once (startC endC b : Int) (mr aIdx fuel : Nat)
    (_hs : 0 ≤ startC) (hse : startC ≤ endC) (hb : 1 ≤ b)
    (hfuel : (endC + 1 - startC).toNat + 1 ≤ fuel) :
    (∃ atts, runRange (fun _ => true) endC b mr fuel startC 0 aIdx [] [] 0 =
      some ⟨atts, ceilBatches (endC + 1 - startC).toNat b.toNat,
        RangeRes.ok (FetchCheckpointBatch startC endC)⟩) ∧
    (∀ x : Int, x ∈ FetchCheckpointBatch startC endC ↔ startC ≤ x ∧ x ≤ endC) ∧
    (FetchCheckpointBatch startC endC).Sorted (· < ·) ∧
    (∀ x : Int, x ∈ FetchCheckpointBatch startC endC →
      (FetchCheckpointBatch startC endC).count x = 1) := by
  refine ⟨?_, fun x => mem_FetchCheckpointBatch _ _ x,
    FetchCheckpointBatch_sorted _ _, fun x hx =>
      List.count_eq_one_of_mem (FetchCheckpointBatch_nodup _ _) hx⟩
  obtain ⟨atts2, h⟩ := runRange_allOk endC b mr hb fuel startC aIdx [] [] 0 hse hfuel
  exact ⟨atts2, by simpa using h⟩

theorem claim_C1_witness :
    (∃ atts, runRange (fun _ => true) 4 2 3 7 0 0 0 [] [] 0 =
      some ⟨atts, ceilBatches ((4 : Int) + 1 - 0).toNat (2 : Int).toNat,
        RangeRes.ok (FetchCheckpointBatch 0 4)⟩) ∧
    (∀ x : Int, x ∈ FetchCheckpointBatch 0 4 ↔ 0 ≤ x ∧ x ≤ 4) ∧
    (FetchCheckpointBatch 0 4).Sorted (· < ·) ∧
    (∀ x : Int, x ∈ FetchCheckpointBatch 0 4 →
      (FetchCheckpointBatch 0 4).count x = 1) :=
  claim_C1_visits_each_once 0 4 2 3 0 7 (by decide) (by decide) (by decide) (by decide)

/-- C2 counterexample: with `start = -1`, `end = 0` the range validation is
violated (`start < 0`), yet `FetchCheckpointRange` issues the
latest-checkpoint RPC before returning the validation error, contradicting
"fails fast before any network activity". -/
theorem claim_C2_counterexample :
    (-1 : Int) < 0 ∧
    FetchCheckpointRange (some 100) (fun _ => true) 10 (-1) 0 10 =
      some ([RpcEvent.getLatest], RangeResult.errStartNeg) ∧
    [RpcEvent.getLatest] ≠ ([] : List RpcEvent) := by
  refine ⟨by decide, by decide, by decide⟩

/-- C2 (amended): for `end ≥ 1` (so the latest-checkpoint resolution is
skipped), a violating range — `start < 0` or `start > end` — returns the
corresponding validation error with an empty network trace. -/
theorem claim_C2_failfast (latest : Option Int) (oracle : Nat → Bool) (fuel : Nat)
    (startC endC b : Int) (hend : 1 ≤ endC) (hbad : startC < 0 ∨ endC < startC) :
    FetchCheckpointRange latest oracle fuel startC endC b =
      some ([], if startC < 0 then RangeResult.errStartNeg
        else RangeResult.errStartGtEnd) := by
  unfold FetchCheckpointRange resolveEnd
  rw [if_neg (show ¬ endC ≤ 0 by omega)]
  by_cases hneg : startC < 0
  · simp only [if_pos hneg]
  · have hgt : startC > endC := by omega
    simp only [if_neg hneg, if_pos hgt]

theorem claim_C2_witness :
    FetchCheckpointRange (some 50) (fun _ => true) 5 (-3) 2 10 =
      some ([], RangeResult.errStartNeg) := by
  have h := claim_C2_failfast (some 50) (fun _ => true) 5 (-3) 2 10
    (by decide) (Or.inl (by decide))
  simpa using h

/-- C4: in the bounded-range strategy, a batch failing on every attempt
aborts the run after `maxRetries + 1` consecutive failed attempts of the
same batch (from its start), with an error reporting `maxRetries`; a
successful attempt resets the consecutive retry counter to `0`; at the top
level (`maxRetries = 3` in the source) four failed attempts produce the
error reporting `3`. -/
theorem claim_C4_retry_exhaustion :
    (∀ (endC b : Int) (mr : Nat) (startC : Int) (fuel aIdx : Nat)
        (acc : List Int) (atts : List (Int × Int)) (iters : Nat),
        startC ≤ endC → mr + 1 ≤ fuel →
        runRange (fun _ => false) endC b mr fuel startC 0 aIdx acc atts iters =
          some ⟨atts ++ List.replicate (mr + 1) (startC, clipEnd endC b startC),
            iters + (mr + 1), RangeRes.exhausted mr⟩) ∧
    (∀ (oracle : Nat → Bool) (endC b : Int) (mr fuel : Nat) (cur : Int)
        (rc aIdx : Nat) (acc : List Int) (atts : List (Int × Int)) (iters : Nat),
        cur ≤ endC → oracle aIdx = true →
        runRange oracle endC b mr (fuel + 1) cur rc aIdx acc atts iters =
          runRange oracle endC b mr fuel (cur + b) 0 (aIdx + 1)
            (acc ++ FetchCheckpointBatch cur (clipEnd endC b cur))
            (atts ++ [(cur, clipEnd endC b cur)]) (iters + 1)) ∧
    (∀ (latest : Option Int) (fuel : Nat) (startC endC b : Int),
        1 ≤ endC → 0 ≤ startC → startC ≤ endC → 4 ≤ fuel →
        FetchCheckpointRange latest (fun _ => false) fuel startC endC b =
          some (List.replicate 4
              (RpcEvent.batchAttempt startC (clipEnd endC b startC)),
            RangeResult.errRetries 3)) := by
  refine ⟨?_, ?_, ?_⟩
  · intro endC b mr startC fuel aIdx acc atts iters hse hfuel
    exact runRange_allFail endC b mr mr 0 (by omega) fuel (by omega)
      startC aIdx acc atts iters hse
  · intro oracle endC b mr fuel cur rc aIdx acc atts iters hcur h
    exact runRange_step_ok hcur h
  · intro latest fuel startC endC b hend hs hse hfuel
    unfold FetchCheckpointRange resolveEnd
    rw [if_neg (show ¬ endC ≤ 0 by omega)]
    simp only [if_neg (show ¬ startC < 0 by omega),
      if_neg (show ¬ startC > endC by omega)]
    rw [runRange_allFail endC b 3 3 0 (by omega) fuel (by omega)
      startC 0 [] [] 0 hse]
    simp

theorem claim_C4_witness :
    runRange (fun _ => false) 5 2 3 6 0 0 0 [] [] 0 =
      some ⟨List.replicate 4 ((0 : Int), clipEnd 5 2 0), 0 + 4,
        RangeRes.exhausted 3⟩ ∧
    runRange (fun _ => true) 5 2 3 (6 + 1) 0 2 0 [] [] 0 =
      runRange (fun _ => true) 5 2 3 6 (0 + 2) 0 (0 + 1)
        ([] ++ FetchCheckpointBatch 0 (clipEnd 5 2 0))
        ([] ++ [((0 : Int), clipEnd 5 2 0)]) (0 + 1) ∧
    FetchCheckpointRange (some 50) (fun _ => false) 6 0 5 2 =
      some (List.replicate 4 (RpcEvent.batchAttempt 0 (clipEnd 5 2 0)),
        RangeResult.errRetries 3) :=
  ⟨claim_C4_retry_exhaustion.1 5 2 3 0 6 0 [] [] 0 (by decide) (by decide),
   claim_C4_retry_exhaustion.2.1 (fun _ => true) 5 2 3 6 0 2 0 [] [] 0
     (by decide) (by decide),
   claim_C4_retry_exhaustion.2.2 (some 50) 6 0 5 2
     (by decide) (by decide) (by decide) (by decide)⟩

/-- C10: for `0 ≤ start ≤ end` the batch loop terminates for every
`maxBatchSize ≥ 1` whatever the success/failure pattern (the embedding
yields a result for sufficient fuel); `maxBatchSize` is never validated,
and for `maxBatchSize ≤ 0` the loop index never passes the end of the
range, so (with fetches succeeding) no amount of fuel completes the loop. -/
theorem claim_C10_loop_termination :
    (∀ (oracle : Nat → Bool) (endC b : Int) (mr : Nat) (startC : Int),
        0 ≤ startC → startC ≤ endC → 1 ≤ b →
        ∃ fuel, (runRange oracle endC b mr fuel startC 0 0 [] [] 0).isSome = true) ∧
    (∀ (endC b : Int) (mr : Nat) (startC : Int) (fuel : Nat),
        0 ≤ startC → startC ≤ endC → b ≤ 0 →
        runRange (fun _ => true) endC b mr fuel startC 0 0 [] [] 0 = none) := by
  constructor
  · intro oracle endC b mr startC hs hse hb
    refine ⟨(endC + 1 - startC).toNat * (mr + 1) + mr + 1, ?_⟩
    exact runRange_total oracle endC b hb mr _ startC 0 0 [] [] 0 (by omega)
  · intro endC b mr startC fuel hs hse hb
    exact runRange_stuck endC b hb mr fuel startC 0 0 [] [] 0 hse

theorem claim_C10_witness :
    (∃ fuel, (runRange (fun _ => true) 5 2 3 fuel 0 0 0 [] [] 0).isSome = true) ∧
    runRange (fun _ => true) 3 0 3 7 0 0 0 [] [] 0 = none :=
  ⟨claim_C10_loop_termination.1 (fun _ => true) 5 2 3 0
      (by decide) (by decide) (by decide),
   claim_C10_loop_termination.2 3 0 3 0 7 (by decide) (by decide) (by decide)⟩

/-- C3 (evidence): the aggregation sorts with Go's `sort.Slice`, whose
contract (`sortSliceSpec`: a permutation of the input, non-decreasing in
the version key) does **not** determine the relative order of records with
equal version keys: for this two-state input both orders satisfy the
contract, so stability is not guaranteed by the sort the code calls
(`sort.SliceStable` would be needed). -/
theorem claim_C3_sort_contract_not_stable :
    sortSliceSpec
      [⟨"1", "a", "", none, "", 0⟩, ⟨"1", "b", "", none, "", 0⟩]
      [⟨"1", "b", "", none, "", 0⟩, ⟨"1", "a", "", none, "", 0⟩] ∧
    ([⟨"1", "b", "", none, "", 0⟩, ⟨"1", "a", "", none, "", 0⟩] :
        List ObjectState) ≠
      [⟨"1", "a", "", none, "", 0⟩, ⟨"1", "b", "", none, "", 0⟩] := by
  refine ⟨⟨?_, ?_⟩, by decide⟩
  · exact List.Perm.swap _ _ _
  · decide

/-- C5: in the discovery strategy, once the current-state record is
obtained, the run always returns successfully; a failure of the initial
transaction-discovery query leaves the history with only the current-state
record; and per-transaction fetch failures (including the not-found
condition) are skipped while the remaining transactions are processed. -/
theorem claim_C5_discovery_degrades (env : DiscoveryEnv)
    (sortImpl : List ObjectState → List ObjectState) (objectID : String)
    (cur : ObjectState) (hcur : env.currentState = some cur) :
    (∃ h, FetchObjectHistory env sortImpl objectID = some h) ∧
    (env.objectTransactions = none →
      ∃ h, FetchObjectHistory env sortImpl objectID = some h ∧
        h.states = sortImpl [cur]) ∧
    (∀ txs, env.objectTransactions = some txs →
      ∃ h, FetchObjectHistory env sortImpl objectID = some h ∧
        h.states = sortImpl (cur ::
          (txs.filter (fun t => t ≠ cur.previousTx)).filterMap
            (fun t => detailOption (env.detailsFromTx t)))) := by
  unfold FetchObjectHistory
  rw [hcur]
  cases hTx : env.objectTransactions with
  | none =>
    refine ⟨⟨_, rfl⟩, fun _ => ⟨_, rfl, rfl⟩, fun txs htxs => absurd htxs (by simp)⟩
  | some txs =>
    refine ⟨⟨_, rfl⟩, fun hnone => absurd hnone (by simp), ?_⟩
    rintro txs2 htxs2
    obtain rfl : txs = txs2 := Option.some.inj htxs2
    refine ⟨_, rfl, ?_⟩
    show sortImpl (txs.foldl (discoverStep env cur.previousTx) [cur]) = _
    rw [foldl_discoverStep env cur.previousTx txs [cur]]
    rfl

theorem claim_C5_witness :
    ∃ h, FetchObjectHistory
        ⟨some ⟨"3", "", "", some "A", "t0", 100⟩, some ["t1", "t2"],
          fun t => if t = "t1" then DetailRes.found ⟨"5", "", "", some "B", "t1", 200⟩
            else DetailRes.notFound⟩
        id "obj" = some h ∧
      h.states = [⟨"3", "", "", some "A", "t0", 100⟩,
        ⟨"5", "", "", some "B", "t1", 200⟩] ∧
      h.states.length = 2 := by
  obtain ⟨h, hh, hs⟩ := (claim_C5_discovery_degrades
    ⟨some ⟨"3", "", "", some "A", "t0", 100⟩, some ["t1", "t2"],
      fun t => if t = "t1" then DetailRes.found ⟨"5", "", "", some "B", "t1", 200⟩
        else DetailRes.notFound⟩
    id "obj" ⟨"3", "", "", some "A", "t0", 100⟩ rfl).2.2 ["t1", "t2"] rfl
  refine ⟨h, hh, ?_, ?_⟩
  · rw [hs]; rfl
  · rw [hs]; rfl

/-- C6 counterexample: a single record whose (positive) timestamp equals
the `int64Max` sentinel used to initialize the minimum scan.  The minimum
positive timestamp is `int64Max`, but the computed `FirstSeen` stays `0`
because the write-back guard `minTimestamp < int64Max` fails, contradicting
the claim for this input (`LastSeen` is still correct). -/
theorem claim_C6_counterexample :
    0 < (⟨"1", "", "", none, "", int64Max⟩ : ObjectState).timestamp ∧
    specFirstSeen [⟨"1", "", "", none, "", int64Max⟩] = int64Max ∧
    (computeStats [⟨"1", "", "", none, "", int64Max⟩]).firstSeen = 0 ∧
    (0 : Int) ≠ int64Max := by
  refine ⟨by decide, by decide, by decide, by decide⟩

/-- C6 (amended): provided every timestamp is below the `int64Max` sentinel
(always the case for genuine millisecond timestamps), `FirstSeen` is the
minimum and `LastSeen` the maximum timestamp among records with positive
timestamp, and both stay `0` when no record has one. -/
theorem claim_C6_timestamp_bounds (l : List ObjectState)
    (h : ∀ st ∈ l, st.timestamp < int64Max) :
    (computeStats l).firstSeen = specFirstSeen l ∧
    (computeStats l).lastSeen = specLastSeen l :=
  ⟨computeStats_firstSeen l h, computeStats_lastSeen l⟩

theorem claim_C6_witness :
    specFirstSeen
        [⟨"1", "", "", none, "", 0⟩, ⟨"2", "", "", none, "", 500⟩,
          ⟨"3", "", "", none, "", 0⟩, ⟨"4", "", "", none, "", 300⟩] = 300 ∧
    specLastSeen
        [⟨"1", "", "", none, "", 0⟩, ⟨"2", "", "", none, "", 500⟩,
          ⟨"3", "", "", none, "", 0⟩, ⟨"4", "", "", none, "", 300⟩] = 500 ∧
    (computeStats
        [⟨"1", "", "", none, "", 0⟩, ⟨"2", "", "", none, "", 500⟩,
          ⟨"3", "", "", none, "", 0⟩, ⟨"4", "", "", none, "", 300⟩]).firstSeen =
      specFirstSeen
        [⟨"1", "", "", none, "", 0⟩, ⟨"2", "", "", none, "", 500⟩,
          ⟨"3", "", "", none, "", 0⟩, ⟨"4", "", "", none, "", 300⟩] ∧
    (computeStats
        [⟨"1", "", "", none, "", 0⟩, ⟨"2", "", "", none, "", 500⟩,
          ⟨"3", "", "", none, "", 0⟩, ⟨"4", "", "", none, "", 300⟩]).lastSeen =
      specLastSeen
        [⟨"1", "", "", none, "", 0⟩, ⟨"2", "", "", none, "", 500⟩,
          ⟨"3", "", "", none, "", 0⟩, ⟨"4", "", "", none, "", 300⟩] :=
  ⟨by decide, by decide,
   (claim_C6_timestamp_bounds _ (by decide)).1,
   (claim_C6_timestamp_bounds _ (by decide)).2⟩

/-- C7: `NumOwners` equals the number of distinct canonical owner keys,
where a `nil` owner maps to the sentinel key `"unknown"`; in particular the
owner multiset `{A, A, B, nil}` counts `3` distinct owners. -/
theorem claim_C7_distinct_owners :
    (∀ l : List ObjectState,
      (computeStats l).numOwners = ((ownerKeys l).toFinset.card : Int)) ∧
    GetOwnerKey none = "unknown" ∧
    (computeStats
      [⟨"1", "", "", some "A", "", 0⟩, ⟨"2", "", "", some "A", "", 0⟩,
       ⟨"3", "", "", some "B", "", 0⟩, ⟨"4", "", "", none, "", 0⟩]).numOwners = 3 :=
  ⟨computeStats_numOwners, rfl, by decide⟩

/-- C8: the summary statistics are invariant under any output the sort
contract admits, hence re-running the sort-and-summarize step on an
already-sorted, already-deduplicated state sequence yields an identical
summary (same `NumChanges`, `NumOwners`, `FirstSeen`, `LastSeen`). -/
theorem claim_C8_aggregator_idempotent (l out : List ObjectState)
    (_hsorted : sortedByVersion l) (_hnodup : l.Nodup)
    (hout : sortSliceSpec l out) :
    computeStats out = computeStats l :=
  computeStats_perm hout.1

theorem claim_C8_witness :
    sortedByVersion
      [⟨"7", "a", "", none, "", 10⟩, ⟨"7", "b", "", some "A", "", 20⟩] ∧
    ([⟨"7", "a", "", none, "", 10⟩, ⟨"7", "b", "", some "A", "", 20⟩] :
      List ObjectState).Nodup ∧
    sortSliceSpec
      [⟨"7", "a", "", none, "", 10⟩, ⟨"7", "b", "", some "A", "", 20⟩]
      [⟨"7", "b", "", some "A", "", 20⟩, ⟨"7", "a", "", none, "", 10⟩] ∧
    computeStats [⟨"7", "b", "", some "A", "", 20⟩, ⟨"7", "a", "", none, "", 10⟩] =
      computeStats [⟨"7", "a", "", none, "", 10⟩, ⟨"7", "b", "", some "A", "", 20⟩] :=
  ⟨by decide, by decide, ⟨List.Perm.swap _ _ _, by decide⟩,
   claim_C8_aggregator_idempotent _ _ (by decide) (by decide)
     ⟨List.Perm.swap _ _ _, by decide⟩⟩

/-- C9: whenever `FetchObjectHistory` returns without error, the returned
history is non-empty and contains the current-state record obtained by the
initial point lookup, `NumChanges` equals `len(States) - 1` (hence is
non-negative), and `NumOwners ≥ 1`; the sort is only assumed to permute its
input, as the `sort.Slice` contract promises. -/
theorem claim_C9_history_invariants (env : DiscoveryEnv)
    (sortImpl : List ObjectState → List ObjectState)
    (hperm : ∀ l, (sortImpl l).Perm l) (objectID : String) (h : ObjectHistory)
    (hrun : FetchObjectHistory env sortImpl objectID = some h) :
    h.states ≠ [] ∧
    (∃ cur, env.currentState = some cur ∧ cur ∈ h.states) ∧
    h.numChanges = (h.states.length : Int) - 1 ∧
    0 ≤ h.numChanges ∧ 1 ≤ h.numOwners := by
  unfold FetchObjectHistory at hrun
  have main : ∀ (g : List ObjectState) (cur0 : ObjectState), cur0 ∈ g →
      sortImpl g ≠ [] ∧ cur0 ∈ sortImpl g ∧
      (computeStats (sortImpl g)).numChanges = ((sortImpl g).length : Int) - 1 ∧
      0 ≤ (computeStats (sortImpl g)).numChanges ∧
      1 ≤ (computeStats (sortImpl g)).numOwners := by
    intro g cur0 hmem
    have hgne : g ≠ [] := List.ne_nil_of_mem hmem
    have hsne : sortImpl g ≠ [] := by
      intro hc
      have hp := hperm g
      rw [hc] at hp
      exact hgne (List.Perm.eq_nil hp.symm)
    obtain ⟨hch, how⟩ := computeStats_of_ne_nil _ hsne
    have hlen := List.length_pos.mpr hsne
    refine ⟨hsne, (hperm g).mem_iff.mpr hmem, hch, ?_, how⟩
    rw [hch]
    omega
  cases hcs : env.currentState with
  | none => rw [hcs] at hrun; exact absurd hrun (by simp)
  | some cur =>
    rw [hcs] at hrun
    cases hTx : env.objectTransactions with
    | none =>
      rw [hTx] at hrun
      injection hrun with hh
      subst hh
      obtain ⟨h1, h2, h3, h4, h5⟩ := main [cur] cur (by simp)
      exact ⟨h1, ⟨cur, rfl, h2⟩, h3, h4, h5⟩
    | some txs =>
      rw [hTx] at hrun
      injection hrun with hh
      subst hh
      have hg : cur ∈ txs.foldl (discoverStep env cur.previousTx) [cur] := by
        rw [foldl_discoverStep env cur.previousTx txs [cur]]
        exact List.mem_append_left _ (List.mem_singleton_self cur)
      obtain ⟨h1, h2, h3, h4, h5⟩ := main _ cur hg
      exact ⟨h1, ⟨cur, rfl, h2⟩, h3, h4, h5⟩

theorem claim_C9_witness :
    ∃ h, FetchObjectHistory
        ⟨some ⟨"1", "", "", none, "t0", 0⟩, none, fun _ => DetailRes.fetchFailed⟩
        id "obj" = some h ∧
      h.states ≠ [] ∧
      (∃ cur, (⟨some ⟨"1", "", "", none, "t0", 0⟩, none,
          fun _ => DetailRes.fetchFailed⟩ : DiscoveryEnv).currentState = some cur ∧
        cur ∈ h.states) ∧
      h.numChanges = (h.states.length : Int) - 1 ∧
      0 ≤ h.numChanges ∧ 1 ≤ h.numOwners := by
  refine ⟨_, rfl, ?_⟩
  exact claim_C9_history_invariants
    ⟨some ⟨"1", "", "", none, "t0", 0⟩, none, fun _ => DetailRes.fetchFailed⟩
    id (fun l => List.Perm.refl l) "obj" _ rfl

end SuiTrace
